import Mathlib

/-!
# FASTAptameR3 preprocessing core — verification development

A shallow embedding of the FASTAptameR3 sequence-preprocessing core
(approximate primer matcher, trimmer, length filter, quality scorer,
batch pipeline, FASTA exporter) together with the front end's input
validation and result-table column logic, and proofs of the behavioural
properties stated in the specification.

The repository's visible TypeScript front end
(`web/src/app/components/preprocess/preprocess.ts`,
`services/preprocess.service.ts`) is embedded directly.  The Python
backend service (`backend/services/preprocess_service.py`) is not among
the repository's files, so the core pipeline components are modelled
from the specification's component contracts (each such definition says
so in its doc comment).
-/

set_option autoImplicit false

namespace FastAptamer

/-! ## Approximate Matcher -/

/-- Modelled from the spec: two bases mismatch when they differ or when
either is the ambiguous base `N` (§4.2: "ambiguous base `N` in either
haystack or pattern counts as a mismatch"). -/
def isMismatch (a b : Char) : Bool :=
  a == 'N' || b == 'N' || a != b

/-- Modelled from the spec: Hamming mismatch count over the overlap of a
candidate window and the pattern (insertions/deletions are not modelled;
a haystack shorter than the pattern is compared over the shortened
overlap, §4.2). -/
def mismatchCount (w p : List Char) : Nat :=
  (List.zipWith isMismatch w p).count true

/-- Modelled from the spec: the allowed error budget is
`floor(maxErrorRate * len(pattern))` mismatches (§4.2). -/
def errorBudget (e : ℚ) (L : Nat) : Nat :=
  (Rat.floor (e * L)).toNat

/-- The candidate window of length `L` anchored `off` positions from the
5′ end of the haystack. -/
def window5 (hay : List Char) (off L : Nat) : List Char :=
  (hay.drop off).take L

/-- Mismatches of the pattern against the candidate window at 5′ offset `o`. -/
def errAt5 (hay pat : List Char) (o : Nat) : Nat :=
  mismatchCount (window5 hay o pat.length) pat

/-- All candidate offsets `0..maxOff` paired with their mismatch counts,
in increasing offset order. -/
def candList (hay pat : List Char) (maxOff : Nat) : List (Nat × Nat) :=
  (List.range (maxOff + 1)).map (fun o => (o, errAt5 hay pat o))

/-- The first element of the list attaining the minimal second component:
fewest errors, ties broken by the earliest (smallest-offset) candidate. -/
def pickBest : List (Nat × Nat) → Option (Nat × Nat)
  | [] => none
  | c :: rest =>
    match pickBest rest with
    | none => some c
    | some b => if b.2 < c.2 then some b else some c

/-- Modelled from the spec: result of one approximate-match query (§3):
whether a match was found, the start offset of the match (distance from
the expected anchor), the mismatch count, and the matched span. -/
structure MatchResult where
  found : Bool
  position : Nat
  errors : Nat
  length : Nat
  deriving Repr, DecidableEq

/-- Modelled from the spec: the Approximate Matcher at the 5′ end (§4.2).
The pattern is anchored at haystack position 0 and slid rightward over
offsets `0..maxOff`; among all candidates the one with fewest mismatches
wins, ties broken by smallest offset; the match is reported found exactly
when its mismatch count is within `errorBudget`.  An empty pattern
performs no matching (`found = false`, zero trim). -/
def find5 (hay pat : List Char) (e : ℚ) (maxOff : Nat) : MatchResult :=
  if pat.length = 0 then ⟨false, 0, 0, 0⟩
  else
    match pickBest (candList hay pat maxOff) with
    | none => ⟨false, 0, 0, 0⟩
    | some (o, errs) =>
      if errs ≤ errorBudget e pat.length then
        ⟨true, o, errs, min pat.length (hay.length - o)⟩
      else ⟨false, 0, 0, 0⟩

/-- Modelled from the spec: the Approximate Matcher at the 3′ end (§4.2)
anchors at the haystack's end and slides leftward; it is modelled by
matching the reversed pattern against the reversed haystack, so the
reported `position` is the offset of the match from the true 3′ end. -/
def find3 (hay pat : List Char) (e : ℚ) (maxOff : Nat) : MatchResult :=
  find5 hay.reverse pat.reverse e maxOff

/-- Mismatches of the pattern against the candidate window anchored `o`
positions in from the 3′ end. -/
def errAt3 (hay pat : List Char) (o : Nat) : Nat :=
  errAt5 hay.reverse pat.reverse o

/-! ## Quality Scorer -/

/-- Modelled from the spec (§4.5): the error probability of one Phred+33
quality byte, `10^(-(byte-33)/10)` for bytes in the printable quality
range `33..126`; a byte outside that range is treated as the worst-case
probability 1 rather than failing the record. -/
noncomputable def phredProb (b : Nat) : ℝ :=
  if 33 ≤ b ∧ b ≤ 126 then (10 : ℝ) ^ (-(((b : ℝ) - 33) / 10)) else 1

/-- Running error-probability sum of a quality window, as a left fold. -/
noncomputable def sumProbs (q : List Nat) : ℝ :=
  q.foldl (fun acc b => acc + phredProb b) 0

/-- Modelled from the spec (§4.5): the Quality Scorer returns the
arithmetic mean of the per-byte error probabilities over the window. -/
noncomputable def avgQualityError (q : List Nat) : ℝ :=
  sumProbs q / q.length

/-! ## Data model and Batch Pipeline -/

/-- Modelled from the spec (§3): a raw record from the Format Reader. -/
structure RawRecord where
  id : List Char
  bases : List Char
  quality : Option (List Nat)
  deriving Repr, DecidableEq

/-- Modelled from the spec (§7): the per-record recoverable errors. -/
inductive RejectReason where
  | MalformedRecord
  | EmptyAfterTrim
  | OutOfLengthRange
  deriving Repr, DecidableEq

/-- Modelled from the spec (§6): the batch-wide user parameter set. -/
structure Config where
  fivePrime : List Char
  threePrime : List Char
  minLength : Int
  maxLength : Int
  maxErrorRate : ℚ
  deriving Repr, DecidableEq

/-- Modelled from the spec (§3): the final, user-visible unit. -/
structure ProcessedRecord where
  id : List Char
  sequence : List Char
  length : Nat
  avgError : Option ℝ

/-- Modelled from the spec (§3): the batch-processing result. -/
structure BatchResult where
  accepted : List ProcessedRecord
  totalInput : Nat
  totalAccepted : Nat
  rejectionCounts : RejectReason → Nat

/-- Modelled from the spec (§4.2): the bounded sliding range for a
haystack and pattern — the largest offset at which the window still lies
inside the haystack (offset 0 alone when the haystack is shorter than
the pattern, where matching proceeds over the shortened overlap). -/
def slideBound (hayLen patLen : Nat) : Nat :=
  hayLen - patLen

/-- Modelled from the spec (§4.3): start index of the insert after 5′
trimming — immediately after the matched span when found, else 0. -/
def trim5 (cfg : Config) (bases : List Char) : Nat :=
  let r := find5 bases cfg.fivePrime cfg.maxErrorRate
    (slideBound bases.length cfg.fivePrime.length)
  if r.found then r.position + r.length else 0

/-- Modelled from the spec (§4.3): number of leading characters of the
(already 5′-trimmed) remainder kept after 3′ trimming — the insert ends
immediately before the matched span when found, else at the end. -/
def trim3 (cfg : Config) (rem : List Char) : Nat :=
  let r := find3 rem cfg.threePrime cfg.maxErrorRate
    (slideBound rem.length cfg.threePrime.length)
  if r.found then rem.length - (r.position + r.length) else rem.length

/-- A FASTQ record whose quality length disagrees with its base length is
malformed (§4.1). -/
def malformedQuality (r : RawRecord) : Bool :=
  match r.quality with
  | none => false
  | some q => q.length != r.bases.length

/-- How many leading characters of the 5′-trimmed remainder the 3′ trim
keeps. -/
def insertKeep (cfg : Config) (bases : List Char) : Nat :=
  trim3 cfg (bases.drop (trim5 cfg bases))

/-- Modelled from the spec (§4.3): the insert — the bases between the two
trimmed ends. -/
def insertOf (cfg : Config) (bases : List Char) : List Char :=
  (bases.drop (trim5 cfg bases)).take (insertKeep cfg bases)

/-- Modelled from the spec (§4.3): the quality bytes sliced with the same
coordinates as the base insert. -/
def qualityWindow (cfg : Config) (bases : List Char) (q : List Nat) : List Nat :=
  (q.drop (trim5 cfg bases)).take (insertKeep cfg bases)

/-- Modelled from the spec (§4.1, §4.3–§4.6): one record's pipeline:
malformed-quality check, 5′ then 3′ trim, empty-after-trim check,
inclusive length filter, then quality scoring over the same coordinate
window as the base insert. -/
noncomputable def processRecord (cfg : Config) (r : RawRecord) :
    Except RejectReason ProcessedRecord :=
  if malformedQuality r = true then .error .MalformedRecord
  else if (insertOf cfg r.bases).length = 0 then .error .EmptyAfterTrim
  else if cfg.minLength ≤ ((insertOf cfg r.bases).length : Int) ∧
      ((insertOf cfg r.bases).length : Int) ≤ cfg.maxLength then
    .ok ⟨r.id, insertOf cfg r.bases, (insertOf cfg r.bases).length,
      r.quality.map (fun q => avgQualityError (qualityWindow cfg r.bases q))⟩
  else .error .OutOfLengthRange

/-- The empty accumulator the batch starts from. -/
def emptyBatch : BatchResult := ⟨[], 0, 0, fun _ => 0⟩

/-- Increment one rejection reason's count. -/
def bump (f : RejectReason → Nat) (reason : RejectReason) : RejectReason → Nat :=
  fun x => if x = reason then f x + 1 else f x

/-- One step of the batch fold: an accepted record is appended in input
order; a rejected record only bumps its reason's count. -/
noncomputable def step (cfg : Config) (acc : BatchResult) (r : RawRecord) : BatchResult :=
  match processRecord cfg r with
  | .ok p => ⟨acc.accepted ++ [p], acc.totalInput + 1, acc.totalAccepted + 1,
      acc.rejectionCounts⟩
  | .error reason => ⟨acc.accepted, acc.totalInput + 1, acc.totalAccepted,
      bump acc.rejectionCounts reason⟩

/-- Modelled from the spec (§4.6): the Batch Pipeline folds every record
through trim → length filter → score, accumulating accepted records in
input order and per-reason rejection counts; no bad record aborts the
batch. -/
noncomputable def process (cfg : Config) (records : List RawRecord) : BatchResult :=
  records.foldl (step cfg) emptyBatch

/-- The sum of the rejection counts over all reject reasons. -/
def sumRejects (f : RejectReason → Nat) : Nat :=
  f .MalformedRecord + f .EmptyAfterTrim + f .OutOfLengthRange

/-- Modelled from the spec (§7): the pre-batch configuration check:
`minLength ≤ maxLength`, no negative length, `maxError` in `[0,1)`. -/
def validConfig (cfg : Config) : Bool :=
  decide (0 ≤ cfg.minLength) && decide (0 ≤ cfg.maxLength) &&
  decide (cfg.minLength ≤ cfg.maxLength) &&
  decide (0 ≤ cfg.maxErrorRate) && decide (cfg.maxErrorRate < 1)

/-- Modelled from the spec (§7): the batch-level fatal errors. -/
inductive BatchError where
  | ConfigurationError
  deriving Repr, DecidableEq

/-- Modelled from the spec (§7): an invalid configuration is rejected
before any record is read — the batch returns a fatal
`ConfigurationError` and produces no partial `BatchResult`. -/
noncomputable def runBatch (cfg : Config) (records : List RawRecord) :
    Except BatchError BatchResult :=
  if validConfig cfg then .ok (process cfg records) else .error .ConfigurationError

/-! ## Front end (`preprocess.ts`) -/

/-- What `startPreprocessing` does with the length parameters. -/
inductive FrontendAction where
  | rejectLengthRange
  | rejectMinGtMax
  | invokeBackend
  deriving Repr, DecidableEq

/-- Embedded from `startPreprocessing` (preprocess.ts, lines 150–165): the
guards that run before the preprocessing request is sent: length range
must lie within 3..500 and `minLength` must not exceed `maxLength`. -/
def startPreprocessingValidate (minLength maxLength : Int) : FrontendAction :=
  if minLength < 3 ∨ maxLength > 500 then .rejectLengthRange
  else if minLength > maxLength then .rejectMinGtMax
  else .invokeBackend

/-- Embedded from `services/preprocess.service.ts`: one row of the
preprocessing response table. -/
structure PreprocessedSequence where
  id : List Char
  sequence : List Char
  length : Nat
  quality : Option (List Char)
  avg_error : Option ℚ
  deriving Repr, DecidableEq

/-- The component's initial `displayedColumns` (preprocess.ts, line 53). -/
def defaultColumns : List String := ["id", "sequence", "length"]

/-- The column set shown when the average-error column is added. -/
def columnsWithAvgError : List String := ["id", "sequence", "length", "avg_error"]

/-- Embedded from `startPreprocessing`'s success handler (preprocess.ts,
lines 177–184): the columns become `id, sequence, length, avg_error`
exactly when the returned data is non-empty and its first record's
`avg_error` is defined; otherwise they are left unchanged. -/
def updateDisplayedColumns (cols : List String) (data : List PreprocessedSequence) :
    List String :=
  match data with
  | [] => cols
  | r :: _ => if r.avg_error.isSome then columnsWithAvgError else cols

/-! ## FASTA Exporter and Format Reader (FASTA branch) -/

/-- Modelled from the spec (§4.7): each record renders as a `>` + id
header line followed by the sequence on its own line. -/
def exportFasta (rs : List ProcessedRecord) : List Char :=
  rs.foldr (fun r acc => '>' :: r.id ++ '\n' :: r.sequence ++ '\n' :: acc) []

/-- Split a byte stream into lines at newline characters. -/
def splitLines : List Char → List (List Char)
  | [] => [[]]
  | c :: rest =>
    if c = '\n' then [] :: splitLines rest
    else
      match splitLines rest with
      | [] => [[c]]
      | l :: ls => (c :: l) :: ls

/-- A line holding only whitespace (or nothing). -/
def isWhitespaceLine (l : List Char) : Bool :=
  l.all fun c => c == ' ' || c == '\t' || c == '\r'

/-- Emit the record being accumulated, unless it never got any bases
(header-only fragments are skipped, §4.1). -/
def flushRecord : Option (List Char × List Char) → List (List Char × List Char)
  | none => []
  | some (i, s) => if s.isEmpty then [] else [(i, s)]

/-- Modelled from the spec (§4.1, FASTA branch): a `>` line starts a new
record whose id is the rest of the line; other non-whitespace lines
extend the current record's bases; whitespace-only lines and header-only
fragments are skipped. -/
def parseFastaLines :
    List (List Char) → Option (List Char × List Char) → List (List Char × List Char)
  | [], cur => flushRecord cur
  | line :: rest, cur =>
    if line.head? = some '>' then
      flushRecord cur ++ parseFastaLines rest (some (line.tail, []))
    else if isWhitespaceLine line then parseFastaLines rest cur
    else
      match cur with
      | none => parseFastaLines rest none
      | some (i, s) => parseFastaLines rest (some (i, s ++ line))

/-- Modelled from the spec (§4.1): the Format Reader on a FASTA byte
stream, as (id, bases) pairs. -/
def parseFasta (stream : List Char) : List (List Char × List Char) :=
  parseFastaLines (splitLines stream) none

/-- The record shapes the exporter round-trips: a single-line id, and a
non-empty sequence that holds no newline, does not begin with `>` and is
not all whitespace — the shapes the pipeline's accepted records take,
their sequences being non-empty strings over the base alphabet. -/
def exportSafe (p : ProcessedRecord) : Prop :=
  '\n' ∉ p.id ∧ p.sequence ≠ [] ∧ '\n' ∉ p.sequence ∧
    p.sequence.head? ≠ some '>' ∧ isWhitespaceLine p.sequence = false

/-! ## Concrete instances

Fixtures the closed instances below evaluate the definitions on.  The
primer-free configuration keeps every base of each read, so the whole
pipeline reduces on them. -/

/-- A batch configuration with no primers and bounds `1..10`. -/
def cfgNoPrimer : Config := ⟨[], [], 1, 10, 0⟩

/-- A configuration whose `minLength` exceeds its `maxLength`. -/
def cfgBad : Config := ⟨[], [], 5, 3, 0⟩

/-- A quality-free raw record. -/
def rcdA : RawRecord := ⟨"r1".toList, "ACGT".toList, none⟩

/-- A second quality-free raw record. -/
def rcdB : RawRecord := ⟨"r2".toList, "GGTTA".toList, none⟩

/-- What the primer-free pipeline produces from `rcdA`. -/
def prcA : ProcessedRecord := ⟨"r1".toList, "ACGT".toList, 4, none⟩

/-- What the primer-free pipeline produces from `rcdB`. -/
def prcB : ProcessedRecord := ⟨"r2".toList, "GGTTA".toList, 5, none⟩

/-- A processed record whose id holds a newline. -/
def prcNewlineId : ProcessedRecord := ⟨['a', '\n', 'b'], "ACGT".toList, 4, none⟩

/-- A response row without an average error. -/
def psNoErr : PreprocessedSequence := ⟨"a".toList, "ACGT".toList, 4, none, none⟩

/-- A response row carrying an average error. -/
def psErr : PreprocessedSequence := ⟨"b".toList, "GGTT".toList, 4, none, some (mkRat 1 2)⟩

/-! ### `pickBest` lemmas -/

theorem pickBest_eq_none {l : List (Nat × Nat)} : pickBest l = none ↔ l = [] := by
  cases l with
  | nil => simp [pickBest]
  | cons c rest =>
    simp only [pickBest]
    cases h : pickBest rest with
    | none => simp
    | some b =>
      by_cases hb : b.2 < c.2 <;> simp [hb]

theorem pickBest_mem {l : List (Nat × Nat)} {b : Nat × Nat}
    (h : pickBest l = some b) : b ∈ l := by
  induction l with
  | nil => simp [pickBest] at h
  | cons c rest ih =>
    simp only [pickBest] at h
    cases hr : pickBest rest with
    | none => rw [hr] at h; simp at h; simp [h]
    | some b' =>
      rw [hr] at h
      by_cases hb : b'.2 < c.2
      · simp [hb] at h; subst h; exact List.mem_cons_of_mem _ (ih hr)
      · simp [hb] at h; simp [h]

theorem pickBest_min {l : List (Nat × Nat)} :
    ∀ {b : Nat × Nat}, pickBest l = some b → ∀ x ∈ l, b.2 ≤ x.2 := by
  induction l with
  | nil => intro b h; simp [pickBest] at h
  | cons c rest ih =>
    intro b h
    simp only [pickBest] at h
    cases hr : pickBest rest with
    | none =>
      rw [hr] at h; simp at h; subst h
      intro x hx
      rcases List.mem_cons.mp hx with rfl | hx'
      · exact le_refl _
      · exact absurd (pickBest_eq_none.mp hr ▸ hx') (List.not_mem_nil x)
    | some b' =>
      rw [hr] at h
      by_cases hb : b'.2 < c.2
      · simp [hb] at h; subst h
        intro x hx
        rcases List.mem_cons.mp hx with rfl | hx'
        · exact le_of_lt hb
        · exact ih hr x hx'
      · simp [hb] at h; subst h
        intro x hx
        rcases List.mem_cons.mp hx with rfl | hx'
        · exact le_refl _
        · exact le_trans (not_lt.mp hb) (ih hr x hx')

/-- The function pickBest returns the first element attaining the minimum: everything
strictly before it in the list has strictly more errors. -/
theorem pickBest_first {l : List (Nat × Nat)} {b : Nat × Nat}
    (h : pickBest l = some b) :
    ∃ l₁ l₂, l = l₁ ++ b :: l₂ ∧ ∀ x ∈ l₁, b.2 < x.2 := by
  induction l with
  | nil => simp [pickBest] at h
  | cons c rest ih =>
    simp only [pickBest] at h
    cases hr : pickBest rest with
    | none =>
      rw [hr] at h; simp at h; subst h
      exact ⟨[], rest, rfl, by simp⟩
    | some b' =>
      rw [hr] at h
      by_cases hb : b'.2 < c.2
      · simp [hb] at h; subst h
        obtain ⟨l₁, l₂, hl, hmin⟩ := ih hr
        refine ⟨c :: l₁, l₂, by rw [hl]; rfl, ?_⟩
        intro x hx
        rcases List.mem_cons.mp hx with rfl | hx'
        · exact hb
        · exact hmin x hx'
      · simp [hb] at h; subst h
        exact ⟨[], rest, rfl, by simp⟩

/-! ### Candidate-list lemmas -/

theorem candList_ne_nil (hay pat : List Char) (maxOff : Nat) :
    candList hay pat maxOff ≠ [] := by
  simp [candList, List.range_succ]

theorem candList_mem_elim {hay pat : List Char} {maxOff : Nat} {x : Nat × Nat}
    (hx : x ∈ candList hay pat maxOff) :
    x.1 ≤ maxOff ∧ x.2 = errAt5 hay pat x.1 := by
  simp only [candList, List.mem_map, List.mem_range] at hx
  obtain ⟨o, ho, rfl⟩ := hx
  exact ⟨Nat.lt_succ_iff.mp ho, rfl⟩

theorem candList_mem_intro {hay pat : List Char} {maxOff o : Nat} (ho : o ≤ maxOff) :
    (o, errAt5 hay pat o) ∈ candList hay pat maxOff := by
  simp only [candList, List.mem_map, List.mem_range]
  exact ⟨o, Nat.lt_succ_iff.mpr ho, rfl⟩

theorem candList_pairwise (hay pat : List Char) (maxOff : Nat) :
    (candList hay pat maxOff).Pairwise (fun x y => x.1 < y.1) := by
  refine List.Pairwise.map _ ?_ (List.pairwise_lt_range (maxOff + 1))
  intro a b hab
  exact hab

/-- The one characterization of the 5′ matcher all matcher claims use:
there is an offset `o`, minimal in errors among all candidates and the
first such, and `find5` reports it found exactly when it is within the
error budget. -/
theorem find5_spec {hay pat : List Char} {e : ℚ} {maxOff : Nat} (hp : pat ≠ []) :
    ∃ o, o ≤ maxOff ∧
      (∀ o', o' ≤ maxOff → errAt5 hay pat o ≤ errAt5 hay pat o') ∧
      (∀ o', o' < o → o' ≤ maxOff → errAt5 hay pat o < errAt5 hay pat o') ∧
      find5 hay pat e maxOff =
        (if errAt5 hay pat o ≤ errorBudget e pat.length then
          ⟨true, o, errAt5 hay pat o, min pat.length (hay.length - o)⟩
        else ⟨false, 0, 0, 0⟩) := by
  have hlen : ¬ pat.length = 0 := by simpa using hp
  obtain ⟨b, hbp⟩ : ∃ b, pickBest (candList hay pat maxOff) = some b := by
    cases hpk : pickBest (candList hay pat maxOff) with
    | none => exact absurd (pickBest_eq_none.mp hpk) (candList_ne_nil hay pat maxOff)
    | some b => exact ⟨b, rfl⟩
  obtain ⟨hb1, hb2⟩ := candList_mem_elim (pickBest_mem hbp)
  obtain ⟨l₁, l₂, hdec, hlt⟩ := pickBest_first hbp
  have hpw := candList_pairwise hay pat maxOff
  rw [hdec] at hpw
  refine ⟨b.1, hb1, ?_, ?_, ?_⟩
  · intro o' ho'
    have := pickBest_min hbp _ (candList_mem_intro ho')
    exact hb2 ▸ this
  · intro o' ho' ho'max
    have hmem : (o', errAt5 hay pat o') ∈ candList hay pat maxOff :=
      candList_mem_intro ho'max
    rw [hdec] at hmem
    rcases List.mem_append.mp hmem with h₁ | h₂
    · exact hb2 ▸ hlt _ h₁
    · rcases List.mem_cons.mp h₂ with heq | h₂'
      · have : o' = b.1 := congrArg Prod.fst heq
        omega
      · have hgt : b.1 < o' :=
          (List.pairwise_cons.mp (List.pairwise_append.mp hpw).2.1).1 _ h₂'
        omega
  · simp only [find5, hlen, if_false, hbp]
    have : b = (b.1, b.2) := rfl
    rw [hb2]

/-- The budget errorBudget is the (truncated-to-`Nat`) floor of `e * L`. -/
theorem errorBudget_eq_floor (e : ℚ) (L : Nat) :
    errorBudget e L = (⌊e * (L : ℚ)⌋).toNat := by
  have h : ⌊e * (L : ℚ)⌋ = Rat.floor (e * (L : ℚ)) := by
    rw [Rat.floor_def, Rat.floor_def']
  rw [errorBudget, h]

/-- Claim C1: for every haystack and non-empty pattern of length `L` with
`maxErrorRate = e`, the matcher's error budget is `floor(e * L)` Hamming
mismatches over the anchored window: it reports found exactly when some
candidate offset's window is within that budget; in particular the
anchored (offset-0) window differing in exactly `floor(e*L)` positions is
found and one differing in `floor(e*L)+1` positions is not; `N` in either
side counts as a mismatch.  Insertions and deletions are never
considered: `mismatchCount` is a positionwise (Hamming) comparison. -/
theorem matcher_error_budget (hay pat : List Char) (e : ℚ) (maxOff : Nat)
    (hp : pat ≠ []) :
    ((find5 hay pat e maxOff).found = true ↔
        ∃ o, o ≤ maxOff ∧ errAt5 hay pat o ≤ errorBudget e pat.length)
    ∧ errorBudget e pat.length = (⌊e * (pat.length : ℚ)⌋).toNat
    ∧ (∀ a b : Char, isMismatch a b = true ↔ a = 'N' ∨ b = 'N' ∨ a ≠ b)
    ∧ (errAt5 hay pat 0 = errorBudget e pat.length →
        (find5 hay pat e 0).found = true)
    ∧ (errAt5 hay pat 0 = errorBudget e pat.length + 1 →
        (find5 hay pat e 0).found = false) := by
  obtain ⟨o, ho, hmin, _hfirst, heq⟩ := @find5_spec hay pat e maxOff hp
  obtain ⟨o₀, ho₀, hmin₀, _hfirst₀, heq₀⟩ := @find5_spec hay pat e 0 hp
  have ho₀z : o₀ = 0 := Nat.le_zero.mp ho₀
  subst ho₀z
  refine ⟨⟨?_, ?_⟩, errorBudget_eq_floor e pat.length, ?_, ?_, ?_⟩
  · intro hf
    rw [heq] at hf
    by_cases hbud : errAt5 hay pat o ≤ errorBudget e pat.length
    · exact ⟨o, ho, hbud⟩
    · simp [hbud] at hf
  · rintro ⟨o', ho', hb'⟩
    have : errAt5 hay pat o ≤ errorBudget e pat.length := le_trans (hmin o' ho') hb'
    rw [heq]; simp [this]
  · intro a b
    simp [isMismatch]
    tauto
  · intro h
    rw [heq₀]
    simp [le_of_eq h]
  · intro h
    rw [heq₀]
    have : ¬ errAt5 hay pat 0 ≤ errorBudget e pat.length := by omega
    simp [this]

/-- Closed instance of `matcher_error_budget`: pattern `AAAA` with
`maxError = 1/4` (budget 1) against a read with one 5′ mismatch. -/
theorem matcher_error_budget_witness :
    (find5 "AAAAGGGG".toList "AAAA".toList (1/4) 4).found = true :=
  ((matcher_error_budget "AAAAGGGG".toList "AAAA".toList (1/4) 4 (by decide)).1).mpr
    ⟨0, Nat.zero_le 4,
      by rw [(by decide : errAt5 "AAAAGGGG".toList "AAAA".toList 0 = 0)]
         exact Nat.zero_le _⟩

/-- Claim C2: whenever some candidate offset is within the error budget, the
matcher returns the occurrence with the fewest mismatches among all
candidate offsets, ties broken by the smallest offset from the expected
anchor — position 0 for the 5′ matcher, and for the 3′ matcher the
smallest distance from the true end (its `position` measures offsets
from the 3′ end). -/
theorem matcher_best_occurrence (hay pat : List Char) (e : ℚ) (maxOff o₀ : Nat)
    (hp : pat ≠ []) (ho₀ : o₀ ≤ maxOff)
    (hb₀ : errAt5 hay pat o₀ ≤ errorBudget e pat.length) :
    ((find5 hay pat e maxOff).found = true
      ∧ (find5 hay pat e maxOff).errors =
          errAt5 hay pat (find5 hay pat e maxOff).position
      ∧ (find5 hay pat e maxOff).position ≤ maxOff
      ∧ (∀ o, o ≤ maxOff →
          (find5 hay pat e maxOff).errors ≤ errAt5 hay pat o)
      ∧ (∀ o, o ≤ maxOff → errAt5 hay pat o = (find5 hay pat e maxOff).errors →
          (find5 hay pat e maxOff).position ≤ o))
    ∧ (∀ o₁, o₁ ≤ maxOff → errAt3 hay pat o₁ ≤ errorBudget e pat.length →
        ((find3 hay pat e maxOff).found = true
          ∧ (find3 hay pat e maxOff).errors =
              errAt3 hay pat (find3 hay pat e maxOff).position
          ∧ (find3 hay pat e maxOff).position ≤ maxOff
          ∧ (∀ o, o ≤ maxOff →
              (find3 hay pat e maxOff).errors ≤ errAt3 hay pat o)
          ∧ (∀ o, o ≤ maxOff → errAt3 hay pat o = (find3 hay pat e maxOff).errors →
              (find3 hay pat e maxOff).position ≤ o))) := by
  have main : ∀ (hay' pat' : List Char), pat' ≠ [] → ∀ o₁, o₁ ≤ maxOff →
      errAt5 hay' pat' o₁ ≤ errorBudget e pat'.length →
      ((find5 hay' pat' e maxOff).found = true
        ∧ (find5 hay' pat' e maxOff).errors =
            errAt5 hay' pat' (find5 hay' pat' e maxOff).position
        ∧ (find5 hay' pat' e maxOff).position ≤ maxOff
        ∧ (∀ o, o ≤ maxOff →
            (find5 hay' pat' e maxOff).errors ≤ errAt5 hay' pat' o)
        ∧ (∀ o, o ≤ maxOff → errAt5 hay' pat' o = (find5 hay' pat' e maxOff).errors →
            (find5 hay' pat' e maxOff).position ≤ o)) := by
    intro hay' pat' hp' o₁ ho₁ hb₁
    obtain ⟨o, ho, hmin, hfirst, heq⟩ := @find5_spec hay' pat' e maxOff hp'
    have hbud : errAt5 hay' pat' o ≤ errorBudget e pat'.length :=
      le_trans (hmin o₁ ho₁) hb₁
    rw [heq, if_pos hbud]
    refine ⟨rfl, rfl, ho, ?_, ?_⟩
    · intro o' ho'
      exact hmin o' ho'
    · intro o' ho' hties
      have hties' : errAt5 hay' pat' o' = errAt5 hay' pat' o := hties
      show o ≤ o'
      by_contra hcon
      have hlt' : o' < o := Nat.lt_of_not_le fun h => hcon h
      have := hfirst o' hlt' ho'
      omega
  refine ⟨main hay pat hp o₀ ho₀ hb₀, ?_⟩
  intro o₁ ho₁ hb₁
  have hp' : pat.reverse ≠ [] := by simpa using hp
  have hlen : pat.reverse.length = pat.length := List.length_reverse pat
  exact main hay.reverse pat.reverse hp' o₁ ho₁ (by rw [hlen]; exact hb₁)

/-- Closed instance of `matcher_best_occurrence`: exact pattern `AAAA`
found two positions in from the 5′ anchor. -/
theorem matcher_best_occurrence_witness :
    (find5 "GGAAAACC".toList "AAAA".toList 0 3).found = true :=
  (matcher_best_occurrence "GGAAAACC".toList "AAAA".toList 0 3 2
    (by decide) (by decide)
    (by rw [(by decide : errAt5 "GGAAAACC".toList "AAAA".toList 2 = 0)]
        exact Nat.zero_le _)).1.1

/-! ### Batch-pipeline lemmas -/

theorem sumRejects_bump (f : RejectReason → Nat) (reason : RejectReason) :
    sumRejects (bump f reason) = sumRejects f + 1 := by
  cases reason <;> simp [sumRejects, bump] <;> omega

theorem foldl_step_totalInput (cfg : Config) (l : List RawRecord) (acc : BatchResult) :
    (l.foldl (step cfg) acc).totalInput = acc.totalInput + l.length := by
  induction l generalizing acc with
  | nil => simp
  | cons r rs ih =>
    simp only [List.foldl_cons, ih, List.length_cons]
    cases hp : processRecord cfg r <;> simp [step, hp] <;> omega

theorem foldl_step_counts (cfg : Config) (l : List RawRecord) (acc : BatchResult)
    (h : acc.totalInput = acc.totalAccepted + sumRejects acc.rejectionCounts) :
    (l.foldl (step cfg) acc).totalInput =
      (l.foldl (step cfg) acc).totalAccepted +
        sumRejects (l.foldl (step cfg) acc).rejectionCounts := by
  induction l generalizing acc with
  | nil => simpa using h
  | cons r rs ih =>
    simp only [List.foldl_cons]
    apply ih
    cases hp : processRecord cfg r with
    | ok p => simp [step, hp]; omega
    | error reason => simp [step, hp, sumRejects_bump]; omega

theorem foldl_step_accepted (cfg : Config) (l : List RawRecord) (acc : BatchResult) :
    (l.foldl (step cfg) acc).accepted =
      acc.accepted ++ l.filterMap (fun r => (processRecord cfg r).toOption) := by
  induction l generalizing acc with
  | nil => simp
  | cons r rs ih =>
    simp only [List.foldl_cons, List.filterMap_cons]
    cases hp : processRecord cfg r with
    | ok p => rw [ih]; simp [step, hp, Except.toOption]
    | error e => rw [ih]; simp [step, hp, Except.toOption]

/-- The accepted list is exactly the in-order image of the records the
per-record pipeline accepts. -/
theorem process_accepted_eq (cfg : Config) (records : List RawRecord) :
    (process cfg records).accepted =
      records.filterMap (fun r => (processRecord cfg r).toOption) := by
  rw [process, foldl_step_accepted]
  rfl

theorem except_toOption_eq_some {ε α : Type _} {x : Except ε α} {a : α} :
    x.toOption = some a ↔ x = .ok a := by
  cases x <;> simp [Except.toOption]

/-- Claim C3: for every input batch, `totalInput` equals `totalAccepted`
plus the sum of the rejection counts over all reject reasons — every
input record is either accepted or counted under exactly one rejection
reason — and `totalInput` is the number of input records. -/
theorem batch_counts_partition (cfg : Config) (records : List RawRecord) :
    (process cfg records).totalInput =
      (process cfg records).totalAccepted +
        sumRejects (process cfg records).rejectionCounts
    ∧ (process cfg records).totalInput = records.length := by
  refine ⟨foldl_step_counts cfg records emptyBatch rfl, ?_⟩
  rw [process, foldl_step_totalInput]
  simp [emptyBatch]

/-- Claim C4: the accepted sequence preserves the relative order of the
accepted input records: if record `i` precedes record `j` in the input
and both are accepted, then `i`'s `ProcessedRecord` precedes `j`'s in
`accepted`. -/
theorem accepted_preserves_order (cfg : Config) (records : List RawRecord)
    (i j : Nat) (p q : ProcessedRecord) (hij : i < j) (hj : j < records.length)
    (hp : processRecord cfg (records.get ⟨i, Nat.lt_trans hij hj⟩) = .ok p)
    (hq : processRecord cfg (records.get ⟨j, hj⟩) = .ok q) :
    ∃ i' j', ∃ (hi' : i' < (process cfg records).accepted.length)
      (hj' : j' < (process cfg records).accepted.length),
      i' < j' ∧ (process cfg records).accepted.get ⟨i', hi'⟩ = p ∧
        (process cfg records).accepted.get ⟨j', hj'⟩ = q := by
  have hacc : (process cfg records).accepted =
      records.filterMap (fun r => (processRecord cfg r).toOption) :=
    process_accepted_eq cfg records
  have hdec : records = records.take j ++ records[j] :: records.drop (j + 1) := by
    conv_lhs => rw [← List.take_append_drop j records]
    rw [List.drop_eq_getElem_cons hj]
  have hfj : (processRecord cfg records[j]).toOption = some q :=
    except_toOption_eq_some.mpr (by simpa using hq)
  have hsplit : records.filterMap (fun r => (processRecord cfg r).toOption) =
      (records.take j).filterMap (fun r => (processRecord cfg r).toOption) ++
        q :: (records.drop (j + 1)).filterMap (fun r => (processRecord cfg r).toOption) := by
    conv_lhs => rw [hdec]
    rw [List.filterMap_append, List.filterMap_cons, hfj]
  have hitake : i < (records.take j).length := by
    simp only [List.length_take]
    omega
  have hpA : p ∈ (records.take j).filterMap (fun r => (processRecord cfg r).toOption) := by
    apply List.mem_filterMap.mpr
    refine ⟨(records.take j)[i], List.getElem_mem hitake, ?_⟩
    rw [List.getElem_take]
    exact except_toOption_eq_some.mpr (by simpa using hp)
  obtain ⟨i', hi'A, hgi⟩ := List.getElem_of_mem hpA
  have hlen : (process cfg records).accepted.length =
      ((records.take j).filterMap (fun r => (processRecord cfg r).toOption)).length
        + 1 + ((records.drop (j + 1)).filterMap
          (fun r => (processRecord cfg r).toOption)).length := by
    rw [hacc, hsplit]
    simp
    omega
  have hi'acc : i' < (process cfg records).accepted.length := by omega
  have hj'acc :
      ((records.take j).filterMap (fun r => (processRecord cfg r).toOption)).length <
        (process cfg records).accepted.length := by omega
  refine ⟨i', _, hi'acc, hj'acc, by omega, ?_, ?_⟩
  · rw [List.get_eq_getElem]
    simp only [hacc, hsplit]
    rw [List.getElem_append_left hi'A]
    exact hgi
  · rw [List.get_eq_getElem]
    simp only [hacc, hsplit]
    rw [List.getElem_append_right (le_refl _)]
    simp

/-- Closed instance of `accepted_preserves_order`: two accepted
quality-free records keep their input order. -/
theorem accepted_preserves_order_witness :
    ∃ i' j', ∃ (hi' : i' < (process cfgNoPrimer [rcdA, rcdB]).accepted.length)
      (hj' : j' < (process cfgNoPrimer [rcdA, rcdB]).accepted.length),
      i' < j' ∧ (process cfgNoPrimer [rcdA, rcdB]).accepted.get ⟨i', hi'⟩ = prcA ∧
        (process cfgNoPrimer [rcdA, rcdB]).accepted.get ⟨j', hj'⟩ = prcB :=
  accepted_preserves_order cfgNoPrimer [rcdA, rcdB] 0 1 prcA prcB
    (by decide) (by decide) rfl rfl

/-- Claim C8: the Batch Pipeline is deterministic — in this purely
functional model `process` is a function of the configuration and input
records alone, so two runs on the same input and configuration yield
identical `accepted` sequences. -/
theorem process_deterministic (cfg₁ cfg₂ : Config)
    (records₁ records₂ : List RawRecord) (hc : cfg₁ = cfg₂) (hr : records₁ = records₂) :
    (process cfg₁ records₁).accepted = (process cfg₂ records₂).accepted := by
  rw [hc, hr]

/-- Closed instance of `process_deterministic` on a concrete batch. -/
theorem process_deterministic_witness :
    (process cfgNoPrimer [rcdA, rcdB]).accepted =
      (process cfgNoPrimer [rcdA, rcdB]).accepted :=
  process_deterministic cfgNoPrimer cfgNoPrimer [rcdA, rcdB] [rcdA, rcdB] rfl rfl

/-- What `processRecord` guarantees about any record it accepts. -/
theorem processRecord_ok (cfg : Config) (r : RawRecord) (p : ProcessedRecord)
    (h : processRecord cfg r = .ok p) :
    p.length = p.sequence.length ∧
    cfg.minLength ≤ (p.length : Int) ∧ (p.length : Int) ≤ cfg.maxLength ∧
    (p.avgError.isSome ↔ r.quality.isSome) ∧ p.id = r.id := by
  unfold processRecord at h
  by_cases hm : malformedQuality r = true
  · rw [if_pos hm] at h
    exact absurd h (by simp)
  · rw [if_neg hm] at h
    by_cases he : (insertOf cfg r.bases).length = 0
    · rw [if_pos he] at h
      exact absurd h (by simp)
    · rw [if_neg he] at h
      by_cases hl : cfg.minLength ≤ ((insertOf cfg r.bases).length : Int) ∧
          ((insertOf cfg r.bases).length : Int) ≤ cfg.maxLength
      · rw [if_pos hl] at h
        have hrec := Except.ok.inj h
        subst hrec
        refine ⟨rfl, hl.1, hl.2, ?_, rfl⟩
        cases r.quality <;> simp
      · rw [if_neg hl] at h
        exact absurd h (by simp)

/-- Claim C9: every record in `accepted` has `length` equal to its
sequence's length, lies within the configured inclusive length bounds,
and carries `avgError` exactly when its source record carried quality
scores. -/
theorem accepted_record_invariants (cfg : Config) (records : List RawRecord)
    (p : ProcessedRecord) (hp : p ∈ (process cfg records).accepted) :
    p.length = p.sequence.length ∧
    cfg.minLength ≤ (p.length : Int) ∧ (p.length : Int) ≤ cfg.maxLength ∧
    ∃ r ∈ records, processRecord cfg r = .ok p ∧
      (p.avgError.isSome ↔ r.quality.isSome) := by
  rw [process_accepted_eq] at hp
  obtain ⟨r, hr, hro⟩ := List.mem_filterMap.mp hp
  have hok : processRecord cfg r = .ok p := except_toOption_eq_some.mp hro
  obtain ⟨h1, h2, h3, h4, _⟩ := processRecord_ok cfg r p hok
  exact ⟨h1, h2, h3, r, hr, hok, h4⟩

/-- Closed instance of `accepted_record_invariants` at a concrete
quality-free accepted record. -/
theorem accepted_record_invariants_witness :
    prcA.length = prcA.sequence.length ∧
    cfgNoPrimer.minLength ≤ (prcA.length : Int) ∧
    (prcA.length : Int) ≤ cfgNoPrimer.maxLength ∧
    ∃ r ∈ [rcdA], processRecord cfgNoPrimer r = .ok prcA ∧
      (prcA.avgError.isSome ↔ r.quality.isSome) :=
  accepted_record_invariants cfgNoPrimer [rcdA] prcA (List.Mem.head _)

/-! ### FASTA round-trip lemmas -/

theorem splitLines_cons (c : Char) (rest : List Char) :
    splitLines (c :: rest) =
      if c = '\n' then [] :: splitLines rest
      else
        match splitLines rest with
        | [] => [[c]]
        | l :: ls => (c :: l) :: ls := rfl

theorem splitLines_append (a s : List Char) (ha : '\n' ∉ a) :
    splitLines (a ++ '\n' :: s) = a :: splitLines s := by
  induction a with
  | nil => simp [splitLines]
  | cons c cs ih =>
    have hc : ¬ c = '\n' := fun h => ha (h ▸ List.mem_cons_self _ _)
    have hcs : '\n' ∉ cs := fun h => ha (List.mem_cons_of_mem _ h)
    rw [List.cons_append, splitLines_cons, if_neg hc, ih hcs]

theorem parseFastaLines_cons (line : List Char) (rest : List (List Char))
    (cur : Option (List Char × List Char)) :
    parseFastaLines (line :: rest) cur =
      if line.head? = some '>' then
        flushRecord cur ++ parseFastaLines rest (some (line.tail, []))
      else if isWhitespaceLine line then parseFastaLines rest cur
      else
        match cur with
        | none => parseFastaLines rest none
        | some (i, s) => parseFastaLines rest (some (i, s ++ line)) := rfl

theorem parseFasta_export (rs : List ProcessedRecord) (h : ∀ p ∈ rs, exportSafe p) :
    ∀ cur, parseFastaLines (splitLines (exportFasta rs)) cur =
      flushRecord cur ++ rs.map (fun p => (p.id, p.sequence)) := by
  induction rs with
  | nil =>
    intro cur
    simp [exportFasta, splitLines, parseFastaLines, isWhitespaceLine]
  | cons p ps ih =>
    intro cur
    obtain ⟨hid, hne, hnl, hgt, hws⟩ := h p (List.mem_cons_self _ _)
    have hps : ∀ x ∈ ps, exportSafe x := fun x hx => h x (List.mem_cons_of_mem _ hx)
    have hexp : exportFasta (p :: ps) =
        ('>' :: p.id) ++ '\n' :: (p.sequence ++ '\n' :: exportFasta ps) := by
      simp [exportFasta]
    have hid' : '\n' ∉ '>' :: p.id := by
      intro hmem
      rcases List.mem_cons.mp hmem with hx | hx
      · exact absurd hx.symm (by decide)
      · exact hid hx
    rw [hexp, splitLines_append _ _ hid', splitLines_append _ _ hnl]
    have step1 : parseFastaLines
        (('>' :: p.id) :: p.sequence :: splitLines (exportFasta ps)) cur =
          flushRecord cur ++
            parseFastaLines (p.sequence :: splitLines (exportFasta ps))
              (some (p.id, [])) := by
      rw [parseFastaLines_cons,
        if_pos (show ('>' :: p.id).head? = some '>' from rfl)]
      rfl
    have step2 : parseFastaLines (p.sequence :: splitLines (exportFasta ps))
        (some (p.id, [])) =
          parseFastaLines (splitLines (exportFasta ps)) (some (p.id, p.sequence)) := by
      rw [parseFastaLines_cons, if_neg hgt,
        if_neg (by rw [hws]; exact Bool.false_ne_true)]
      show parseFastaLines (splitLines (exportFasta ps)) (some (p.id, [] ++ p.sequence)) = _
      rw [List.nil_append]
    rw [step1, step2, ih hps]
    have hflush : flushRecord (some (p.id, p.sequence)) = [(p.id, p.sequence)] := by
      simp [flushRecord, hne]
    rw [hflush]
    simp

/-- The round-trip fails as the claim states it, on every record: a
record whose id holds a newline re-parses with a different id and
sequence. -/
theorem fasta_roundtrip_counterexample :
    parseFasta (exportFasta [prcNewlineId]) ≠
      [(prcNewlineId.id, prcNewlineId.sequence)] := by
  decide

/-- Claim C5, amended: exporting a non-empty sequence of processed records
whose ids are single-line and whose sequences are non-empty, hold no
newline, do not begin with `>` and are not all whitespace — the shapes
the pipeline produces — then re-parsing with the Format Reader yields
exactly the original `id` and `sequence` of every record; `avgError` is
dropped (the exported stream does not depend on it). -/
theorem fasta_roundtrip (rs : List ProcessedRecord) (hne : rs ≠ [])
    (h : ∀ p ∈ rs, exportSafe p) :
    parseFasta (exportFasta rs) = rs.map (fun p => (p.id, p.sequence)) ∧
    exportFasta rs =
      exportFasta (rs.map fun p => ⟨p.id, p.sequence, p.length, none⟩) := by
  constructor
  · rw [parseFasta, parseFasta_export rs h none]
    simp [flushRecord]
  · clear hne h
    induction rs with
    | nil => rfl
    | cons p ps ih => simp [exportFasta] at ih ⊢; rw [ih]

/-- Closed instance of `fasta_roundtrip` on a one-record batch. -/
theorem fasta_roundtrip_witness :
    parseFasta (exportFasta [prcA]) = [prcA].map (fun p => (p.id, p.sequence)) ∧
    exportFasta [prcA] =
      exportFasta ([prcA].map fun p => ⟨p.id, p.sequence, p.length, none⟩) :=
  fasta_roundtrip [prcA] (List.cons_ne_nil _ _)
    (fun p hp => by
      rw [List.mem_singleton.mp hp]
      exact ⟨by decide, by decide, by decide, by decide, by decide⟩)

/-! ### Quality-scorer theorems -/

theorem sumProbs_eq (q : List Nat) : sumProbs q = (q.map phredProb).sum := by
  have key : ∀ (l : List Nat) (init : ℝ),
      l.foldl (fun acc b => acc + phredProb b) init = init + (l.map phredProb).sum := by
    intro l
    induction l with
    | nil => intro init; simp
    | cons b bs ih => intro init; simp [ih, add_assoc]
  simpa [sumProbs] using key q 0

theorem phredProb_33 : phredProb 33 = 1 := by
  rw [phredProb, if_pos (by omega)]
  rw [show -((((33 : Nat) : ℝ) - 33) / 10) = 0 by norm_num, Real.rpow_zero]

/-- Claim C6, amended: the Quality Scorer converts each byte `b` of the
printable quality range `33..126` to the error probability
`10^(-(b-33)/10)`, treats a byte outside that range as the worst-case
probability 1, and returns the arithmetic mean over the window; the
quality window `"!!!!"` (four bytes of value 33) scores exactly 1. -/
theorem quality_scorer_mean :
    (∀ q : List Nat, avgQualityError q = (q.map phredProb).sum / q.length) ∧
    (∀ b : Nat, phredProb b =
      if 33 ≤ b ∧ b ≤ 126 then (10 : ℝ) ^ (-(((b : ℝ) - 33) / 10)) else 1) ∧
    avgQualityError [33, 33, 33, 33] = 1 := by
  refine ⟨fun q => by rw [avgQualityError, sumProbs_eq], fun b => rfl, ?_⟩
  rw [avgQualityError, sumProbs_eq]
  simp [phredProb_33]
  norm_num

/-- The claim's unconditional formula fails on a byte outside the
printable quality range: byte 32 scores the worst-case probability 1,
not `10^(-(32-33)/10) = 10^(1/10)`. -/
theorem quality_scorer_formula_counterexample :
    avgQualityError [32] ≠ (10 : ℝ) ^ (-((((32 : Nat) : ℝ) - 33) / 10)) := by
  have h32 : phredProb 32 = 1 := by
    rw [phredProb, if_neg (by omega)]
  have h1 : avgQualityError [32] = 1 := by
    rw [avgQualityError, sumProbs_eq]
    simp [h32]
  rw [h1, show -((((32 : Nat) : ℝ) - 33) / 10) = 1 / 10 by norm_num]
  have hlt : (1 : ℝ) < (10 : ℝ) ^ ((1 : ℝ) / 10) :=
    (Real.one_lt_rpow_iff_of_pos (by norm_num)).mpr
      (Or.inl ⟨by norm_num, by norm_num⟩)
  exact ne_of_lt hlt

/-! ### Configuration-validation theorem -/

/-- Claim C7: a configuration with `minLength > maxLength`, a negative
length, or `maxError` outside `[0,1)` fails with a fatal
`ConfigurationError` before any record is read: the batch entry point
returns the error and no (partial) `BatchResult`, so nothing is counted
as a per-record rejection; and the front end's `startPreprocessing`
guards never invoke the backend when `minLength > maxLength` or a
length is negative. -/
theorem configuration_error_pre_batch (cfg : Config) (records : List RawRecord)
    (hbad : cfg.maxLength < cfg.minLength ∨ cfg.minLength < 0 ∨ cfg.maxLength < 0 ∨
      cfg.maxErrorRate < 0 ∨ 1 ≤ cfg.maxErrorRate) :
    runBatch cfg records = .error .ConfigurationError ∧
    (∀ minL maxL : Int, maxL < minL ∨ minL < 0 ∨ maxL < 0 →
      startPreprocessingValidate minL maxL ≠ .invokeBackend) := by
  constructor
  · have hv : ¬ validConfig cfg = true := by
      simp only [validConfig, Bool.and_eq_true, decide_eq_true_eq]
      rintro ⟨⟨⟨⟨h1, h2⟩, h3⟩, h4⟩, h5⟩
      rcases hbad with hx | hx | hx | hx | hx
      · exact absurd h3 (not_le.mpr hx)
      · exact absurd h1 (not_le.mpr hx)
      · exact absurd h2 (not_le.mpr hx)
      · exact absurd h4 (not_le.mpr hx)
      · exact absurd h5 (not_lt.mpr hx)
    rw [runBatch, if_neg hv]
  · intro minL maxL hbad2
    rw [startPreprocessingValidate]
    by_cases h1 : minL < 3 ∨ maxL > 500
    · rw [if_pos h1]
      simp
    · rw [if_neg h1]
      by_cases h2 : minL > maxL
      · rw [if_pos h2]
        simp
      · exfalso
        rw [not_or] at h1
        rcases hbad2 with hx | hx | hx <;> omega

/-- Closed instance of `configuration_error_pre_batch`: `minLength = 5`
with `maxLength = 3` is rejected before the batch. -/
theorem configuration_error_pre_batch_witness :
    runBatch cfgBad [rcdA] = .error .ConfigurationError ∧
    (∀ minL maxL : Int, maxL < minL ∨ minL < 0 ∨ maxL < 0 →
      startPreprocessingValidate minL maxL ≠ .invokeBackend) :=
  configuration_error_pre_batch cfgBad [rcdA] (Or.inl (by decide))

/-! ### Result-table column theorem -/

/-- Claim C10: after a successful preprocessing response the displayed
columns (starting from the component's initial columns) include
`avg_error` iff the returned data is non-empty and its first record's
`avg_error` is defined; no record but the first is inspected, so a batch
whose first record lacks `avg_error` hides the column even when a later
record carries one. -/
theorem avg_error_column_first_record_only :
    (∀ data : List PreprocessedSequence,
      "avg_error" ∈ updateDisplayedColumns defaultColumns data ↔
        ∃ r rest, data = r :: rest ∧ r.avg_error.isSome = true) ∧
    "avg_error" ∉ updateDisplayedColumns defaultColumns [psNoErr, psErr] ∧
    psErr.avg_error.isSome = true := by
  refine ⟨?_, by decide, rfl⟩
  intro data
  cases data with
  | nil => simp [updateDisplayedColumns, defaultColumns]
  | cons r rest =>
    rw [updateDisplayedColumns]
    by_cases h : r.avg_error.isSome = true
    · rw [if_pos h]
      simp only [columnsWithAvgError]
      constructor
      · intro _
        exact ⟨r, rest, rfl, h⟩
      · intro _
        simp
    · rw [if_neg h]
      simp only [defaultColumns]
      constructor
      · intro hmem
        exact absurd hmem (by decide)
      · rintro ⟨r', rest', heq, hs⟩
        obtain ⟨rfl, -⟩ := List.cons.inj heq
        exact absurd hs h

end FastAptamer
